import Mathlib

/-!
Shallow embedding of the memory-graph engine of this repository
(`src/tools/memory_graph.py` and `src/tools/memory_tools.py`) and proofs of the
spec's testable properties about it.

Modelling conventions, each noted again at its definition site:
* Python's insertion-ordered `dict` is an association list; `d[k] = v` updates
  the first matching entry in place or appends, `del d[k]` drops the first
  matching entry.
* `uuid.uuid4()` node ids are modelled by a fresh-counter: `MemoryGraph.nextId`
  starts at 1 and only grows, so ids are unique and never reused.  The value `0`
  plays the role of the falsy id (Python's empty string) that `write`'s
  truthiness check `if target_id:` skips; it is never allocated.
* A Python `set` of ids is a duplicate-free list; iteration order of a set is
  unspecified in Python and is modelled as insertion order.
* Machine floats (BM25 scores, cosine similarities) are modelled as rationals,
  and the two external collaborators (the `rank_bm25` scorer and the
  sentence-transformer embedding provider) are abstracted as score inputs:
  `search` takes the BM25 score vector and the cosine-similarity function as
  parameters, exactly where the Python code calls out to the libraries.
* `np.argsort` is modelled as a stable ascending argsort (numpy's behaviour on
  the small inputs considered here); Python's `sorted(..., reverse=True)` is a
  stable descending sort by its key, per its documentation.
-/

set_option maxHeartbeats 1000000

/-- Association-list model of a Python insertion-ordered `dict`: lookup returns
the value of the first (and in a well-formed dict, only) matching key. -/
def assocFind {κ α : Type} [DecidableEq κ] (k : κ) : List (κ × α) → Option α
  | [] => none
  | p :: rest => if p.1 = k then some p.2 else assocFind k rest

/-- Python `d[k] = v`: update the existing entry in place, else append. -/
def assocInsert {κ α : Type} [DecidableEq κ] (k : κ) (v : α) :
    List (κ × α) → List (κ × α)
  | [] => [(k, v)]
  | p :: rest => if p.1 = k then (k, v) :: rest else p :: assocInsert k v rest

/-- Python `del d[k]`: drop the first matching entry (no-op when absent; the
source always guards the delete with a membership test anyway). -/
def assocErase {κ α : Type} [DecidableEq κ] (k : κ) : List (κ × α) → List (κ × α)
  | [] => []
  | p :: rest => if p.1 = k then rest else p :: assocErase k rest

/-- Python mutation of the object stored under key `k` (the dict keeps the
entry in place; its value is updated by `f`). -/
def assocUpdate {κ α : Type} [DecidableEq κ] (k : κ) (f : α → α) :
    List (κ × α) → List (κ × α)
  | [] => []
  | p :: rest => if p.1 = k then (p.1, f p.2) :: rest else p :: assocUpdate k f rest

/-- The `Union[str, Dict[str, Any]]` metadata argument of `add_node`, `write`
and `update`.  Dictionary values are rendered as strings (the source only ever
feeds them to `str(...)` and text search). -/
inductive Metadata : Type
  | str (s : String)
  | dict (d : List (String × String))
deriving DecidableEq

/-- Deterministic rendering standing in for Python's `str(dict)`. -/
def renderDict (d : List (String × String)) : String :=
  "\x7b" ++ String.intercalate ", " (d.map (fun p => p.1 ++ ": " ++ p.2)) ++ "\x7d"

/-- `MemoryNode` from `memory_graph.py`: a node id, the normalized metadata
dict, and the set of outgoing edge targets (duplicate-free list). -/
structure MemoryNode where
  id : Nat
  metadata : List (String × String)
  edges : List Nat
deriving DecidableEq

/-- `MemoryNode.add_edge`: `self.edges.add(target_node_id)` on a Python set —
appends unless already present. -/
def MemoryNode.add_edge (n : MemoryNode) (t : Nat) : MemoryNode :=
  if t ∈ n.edges then n else { n with edges := n.edges ++ [t] }

/-- `MemoryNode.remove_edge`: remove the edge if present, no-op otherwise. -/
def MemoryNode.remove_edge (n : MemoryNode) (t : Nat) : MemoryNode :=
  { n with edges := n.edges.erase t }

/-- `MemoryGraph` state: the id → node dict, the dedup index
`content_hash_to_id_map`, and the fresh-id counter modelling `uuid4`. -/
structure MemoryGraph where
  nodes : List (Nat × MemoryNode)
  content_hash_to_id_map : List (String × Nat)
  nextId : Nat
deriving DecidableEq

/-- A freshly constructed `MemoryGraph()`. -/
def freshGraph : MemoryGraph := ⟨[], [], 1⟩

/-- `MemoryGraph._get_hash` applied to an already-normalized metadata dict:
the `content` value if the key is present, else `str(metadata)`. -/
def dictHash (d : List (String × String)) : String :=
  match assocFind "content" d with
  | some v => v
  | none => renderDict d

/-- `MemoryGraph._get_hash`: a string is its own hash; a dict hashes to its
`content` value when present, else to its string rendering. -/
def getHash : Metadata → String
  | .str s => s
  | .dict d => dictHash d

/-- `MemoryNode.__init__`'s normalization: a bare string becomes
`{"content": s}`; a dict is stored as-is. -/
def normalizeMetadata : Metadata → List (String × String)
  | .str s => [("content", s)]
  | .dict d => d

/-- `MemoryGraph.add_node`: return the mapped id when the content hash is
already in the dedup index; otherwise create a fresh node, register it in
`nodes` and the index, and return its id. -/
def MemoryGraph.add_node (g : MemoryGraph) (m : Metadata) : Nat × MemoryGraph :=
  let content_hash := getHash m
  match assocFind content_hash g.content_hash_to_id_map with
  | some i => (i, g)
  | none =>
    let nid := g.nextId
    let node : MemoryNode := ⟨nid, normalizeMetadata m, []⟩
    (nid, ⟨g.nodes ++ [(nid, node)],
           assocInsert content_hash nid g.content_hash_to_id_map, nid + 1⟩)

/-- `MemoryGraph.get_node`: `self.nodes.get(node_id)`. -/
def MemoryGraph.get_node (g : MemoryGraph) (i : Nat) : Option MemoryNode :=
  assocFind i g.nodes

/-- `MemoryGraph.add_edge`: `False` without mutation when either id is absent,
else insert the target into the source node's edge set and return `True`. -/
def MemoryGraph.add_edge (g : MemoryGraph) (s t : Nat) : Bool × MemoryGraph :=
  if (g.get_node s).isSome ∧ (g.get_node t).isSome then
    (true, { g with nodes := assocUpdate s (fun n => n.add_edge t) g.nodes })
  else (false, g)

/-- `list(self.nodes.keys())` — the `id_list` used by `bm25_search`. -/
def MemoryGraph.nodeIds (g : MemoryGraph) : List Nat := g.nodes.map Prod.fst

/-- All ids appearing in some stored node's edge set (used only to bound the
BFS worklist). -/
def MemoryGraph.edgeTargets (g : MemoryGraph) : Finset Nat :=
  g.nodes.foldr (fun p acc => p.2.edges.toFinset ∪ acc) ∅

/-- Every id the BFS can ever enqueue beyond its seeds. -/
def MemoryGraph.idUniverse (g : MemoryGraph) : Finset Nat :=
  g.nodeIds.toFinset ∪ g.edgeTargets

/-- The loop body's `for neighbor_id in current_node.edges: if neighbor_id not
in discovered` — the batch of newly discovered neighbors.  A Python set never
yields duplicates, hence the `dedup`. -/
def freshNeighbors (node : MemoryNode) (discovered : List Nat) : List Nat :=
  node.edges.dedup.filter (fun t => decide (t ∉ discovered))

/-- Termination measure for the BFS worklist: undiscovered ids of the graph's
id universe plus the queue length; every loop iteration strictly decreases
it. -/
def bfsMeasure (g : MemoryGraph) (queue : List (Nat × Nat)) (discovered : List Nat) : Nat :=
  (g.idUniverse \ discovered.toFinset).card + queue.length

theorem assocFind_mem {κ α : Type} [DecidableEq κ] {k : κ} {v : α} :
    ∀ {l : List (κ × α)}, assocFind k l = some v → (k, v) ∈ l := by
  intro l h
  induction l with
  | nil => simp [assocFind] at h
  | cons p rest ih =>
    rw [assocFind] at h
    by_cases hk : p.1 = k
    · rw [if_pos hk] at h
      have hv := Option.some.inj h
      cases p
      dsimp at hk hv
      subst hk
      subst hv
      exact List.mem_cons_self _ _
    · rw [if_neg hk] at h
      exact List.mem_cons_of_mem _ (ih h)

theorem mem_edgeTargets_aux {p : Nat × MemoryNode} :
    ∀ {l : List (Nat × MemoryNode)}, p ∈ l →
      p.2.edges.toFinset ⊆ l.foldr (fun q acc => q.2.edges.toFinset ∪ acc) ∅ := by
  intro l hp
  induction l with
  | nil => cases hp
  | cons q rest ih =>
    rcases List.mem_cons.mp hp with h | h
    · subst h
      exact Finset.subset_union_left
    · exact (ih h).trans Finset.subset_union_right

theorem edges_subset_edgeTargets {g : MemoryGraph} {c : Nat} {node : MemoryNode}
    (h : g.get_node c = some node) : node.edges.toFinset ⊆ g.edgeTargets :=
  mem_edgeTargets_aux (assocFind_mem h)

theorem freshNeighbors_nodup (node : MemoryNode) (disc : List Nat) :
    (freshNeighbors node disc).Nodup :=
  (List.nodup_dedup node.edges).filter _

theorem mem_freshNeighbors {node : MemoryNode} {disc : List Nat} {x : Nat} :
    x ∈ freshNeighbors node disc ↔ x ∈ node.edges ∧ x ∉ disc := by
  unfold freshNeighbors
  simp [List.mem_filter, List.mem_dedup]

theorem freshNeighbors_subset_sdiff {g : MemoryGraph} {c : Nat} {node : MemoryNode}
    (disc : List Nat) (h : g.get_node c = some node) :
    (freshNeighbors node disc).toFinset ⊆ g.idUniverse \ disc.toFinset := by
  intro x hx
  rw [List.mem_toFinset] at hx
  rcases mem_freshNeighbors.mp hx with ⟨hxe, hxd⟩
  rw [Finset.mem_sdiff]
  refine ⟨Finset.mem_union.mpr (Or.inr ?_), ?_⟩
  · exact edges_subset_edgeTargets h (List.mem_toFinset.mpr hxe)
  · rw [List.mem_toFinset]
    exact hxd

theorem bfsMeasure_expand {g : MemoryGraph} {c dep : Nat} {rest : List (Nat × Nat)}
    {disc : List Nat} {node : MemoryNode} (h : g.get_node c = some node) :
    bfsMeasure g (rest ++ (freshNeighbors node disc).map (fun t => (t, dep + 1)))
        (disc ++ freshNeighbors node disc) < bfsMeasure g ((c, dep) :: rest) disc := by
  have hnodup := freshNeighbors_nodup node disc
  have hsub := freshNeighbors_subset_sdiff disc h
  have hsplit : g.idUniverse \ (disc.toFinset ∪ (freshNeighbors node disc).toFinset)
      = (g.idUniverse \ disc.toFinset) \ (freshNeighbors node disc).toFinset := by
    ext x
    simp only [Finset.mem_sdiff, Finset.mem_union]
    tauto
  have hcardF : (freshNeighbors node disc).toFinset.card = (freshNeighbors node disc).length := by
    rw [List.toFinset_card_of_nodup hnodup]
  have hle : (freshNeighbors node disc).length ≤ (g.idUniverse \ disc.toFinset).card := by
    rw [← hcardF]
    exact Finset.card_le_card hsub
  have hcard : (g.idUniverse \ (disc ++ freshNeighbors node disc).toFinset).card
      = (g.idUniverse \ disc.toFinset).card - (freshNeighbors node disc).length := by
    rw [List.toFinset_append, hsplit, Finset.card_sdiff hsub, hcardF]
  unfold bfsMeasure
  rw [hcard]
  simp only [List.length_append, List.length_map, List.length_cons]
  omega

/-- `MemoryGraph.bfs_exploration`'s `while queue:` loop, as a recursive
function over the explicit `(queue, discovered)` state.  An entry is skipped
once its depth reaches `max_depth` or when its id names no stored node;
otherwise the undiscovered neighbors are appended to both the discovered set
and the queue at depth + 1. -/
def bfsLoop (g : MemoryGraph) (max_depth : Nat) (queue : List (Nat × Nat))
    (discovered : List Nat) : List Nat :=
  match queue with
  | [] => discovered
  | (current_id, depth) :: rest =>
    if max_depth ≤ depth then bfsLoop g max_depth rest discovered
    else
      match hnode : g.get_node current_id with
      | none => bfsLoop g max_depth rest discovered
      | some node =>
        bfsLoop g max_depth
          (rest ++ (freshNeighbors node discovered).map (fun t => (t, depth + 1)))
          (discovered ++ freshNeighbors node discovered)
termination_by bfsMeasure g queue discovered
decreasing_by
  · unfold bfsMeasure
    simp
  · unfold bfsMeasure
    simp
  · exact bfsMeasure_expand hnode

/-- `MemoryGraph.bfs_exploration`: `discovered = set(start_nodes)`, seed queue
at depth 0 (seed duplicates stay in the queue, as in the source), then the
worklist loop.  The returned list is duplicate-free and stands for the Python
result set. -/
def MemoryGraph.bfs_exploration (g : MemoryGraph) (start_nodes : List Nat)
    (max_depth : Nat) : List Nat :=
  bfsLoop g max_depth (start_nodes.map (fun i => (i, 0))) start_nodes.dedup

/-- Python slice `l[i:]` for an `int` index `i` (negative counts from the
end, clamped). -/
def pySliceFrom {α : Type} (l : List α) (i : Int) : List α :=
  if 0 ≤ i then l.drop i.toNat else l.drop (l.length + i).toNat

/-- Python slice `l[:k]` for an `int` bound `k` (negative counts from the
end, clamped). -/
def pySliceTo {α : Type} (l : List α) (k : Int) : List α :=
  if 0 ≤ k then l.take k.toNat else l.take (l.length + k).toNat

/-- Stable insertion into an ascending run, by score. -/
def insertAsc (x : Nat × ℚ) : List (Nat × ℚ) → List (Nat × ℚ)
  | [] => [x]
  | y :: ys => if x.2 ≤ y.2 then x :: y :: ys else y :: insertAsc x ys

/-- Stable ascending sort by score (model of `np.argsort`'s ordering). -/
def sortAsc : List (Nat × ℚ) → List (Nat × ℚ)
  | [] => []
  | x :: xs => insertAsc x (sortAsc xs)

/-- `np.argsort(scores)`: the indices of `scores` in (stable) ascending score
order. -/
def argsortAsc (scores : List ℚ) : List Nat := (sortAsc scores.enum).map Prod.fst

/-- `MemoryGraph.bm25_search`, with the external BM25 scorer abstracted as the
score vector it returns for the current corpus (one score per node, in
`nodes` order, which `bm25_setup` guarantees is current at query time):
`top_indices = np.argsort(scores)[-top_k:]` then mapping through `id_list`. -/
def MemoryGraph.bm25_search (g : MemoryGraph) (scores : List ℚ) (top_k : Int) : List Nat :=
  (pySliceFrom (argsortAsc scores) (-top_k)).map (fun i => g.nodeIds.getD i 0)

/-- Stable insertion into a descending run, by score. -/
def insertDesc (x : Nat × ℚ) : List (Nat × ℚ) → List (Nat × ℚ)
  | [] => [x]
  | y :: ys => if y.2 ≤ x.2 then x :: y :: ys else y :: insertDesc x ys

/-- Python's stable `sorted(results, key=lambda x: x[1], reverse=True)`. -/
def sortDesc : List (Nat × ℚ) → List (Nat × ℚ)
  | [] => []
  | x :: xs => insertDesc x (sortDesc xs)

/-- `MemoryGraph.semantic_search`, with the embedding provider abstracted as
the cosine-similarity score `sim` it induces on each candidate node's text
(deterministic for a fixed query and model, per the spec's provider
assumptions): empty candidates short-circuit, otherwise score, stable-sort
descending and truncate to `top_k`. -/
def MemoryGraph.semantic_search (g : MemoryGraph) (sim : Nat → ℚ)
    (candidate_ids : List Nat) (top_k : Int) : List (Nat × ℚ) :=
  if candidate_ids = [] then []
  else pySliceTo (sortDesc (candidate_ids.map (fun i => (i, sim i)))) top_k

/-- One record of `search`'s result list. -/
structure SearchResult where
  id : Nat
  metadata : List (String × String)
  score : ℚ
  connections : List Nat
deriving DecidableEq

/-- `write` from `memory_tools.py`, connection loop: `if connections:` then for
each truthy target id, `add_edge(node_id, target_id)` (silently a no-op when
the target does not exist, since `add_edge` then returns `False` without
mutating). -/
def applyConnections (g : MemoryGraph) (nid : Nat) (connections : List Nat) : MemoryGraph :=
  connections.foldl (fun acc t => if t ≠ 0 then (acc.add_edge nid t).2 else acc) g

/-- `write(metadata, connections)` from `memory_tools.py`, acting on the given
graph state (the source's process-global `_memory_graph`). -/
def write (g : MemoryGraph) (metadata : Metadata) (connections : List Nat) :
    Nat × MemoryGraph :=
  let r := g.add_node metadata
  (r.1, applyConnections r.2 r.1 connections)

/-- `search(query, top_k, bfs_depth, bm25_candidates)` from `memory_tools.py`:
empty graph short-circuits to `[]`; otherwise BM25 seeding, BFS expansion
(`list(candidate_set)` modelled in discovery order; Python's set order is
unspecified), semantic re-ranking, then result assembly (`list(node.edges)`).
The two external scorers enter as the `scores` vector and `sim` function. -/
def search (g : MemoryGraph) (scores : List ℚ) (sim : Nat → ℚ)
    (top_k : Int) (bfs_depth : Nat) (bm25_candidates : Int) : List SearchResult :=
  if g.nodes = [] then []
  else
    let initialCandidates := g.bm25_search scores bm25_candidates
    let candidateSet := g.bfs_exploration initialCandidates bfs_depth
    let semanticResults := g.semantic_search sim candidateSet top_k
    semanticResults.filterMap (fun p =>
      (g.get_node p.1).map (fun node => ⟨p.1, node.metadata, p.2, node.edges⟩))

/-- `update(node_id, metadata, add_connections, remove_connections)` from
`memory_tools.py`: `False` when the node is absent; otherwise replace the
metadata and re-key the dedup index (`del` of the old hash guarded only by
membership, new hash mapped to this node id), add each truthy existing target
as an edge, and remove the listed edges. -/
def update (g : MemoryGraph) (node_id : Nat) (metadata : Option Metadata)
    (add_connections remove_connections : List Nat) : Bool × MemoryGraph :=
  match g.get_node node_id with
  | none => (false, g)
  | some node =>
    let g1 : MemoryGraph :=
      match metadata with
      | none => g
      | some m =>
        let old_hash := dictHash node.metadata
        let newNodes := assocUpdate node_id (fun n => { n with metadata := normalizeMetadata m }) g.nodes
        let g' : MemoryGraph := { g with nodes := newNodes }
        let map1 := if (assocFind old_hash g'.content_hash_to_id_map).isSome
                    then assocErase old_hash g'.content_hash_to_id_map
                    else g'.content_hash_to_id_map
        let new_hash := dictHash (normalizeMetadata m)
        { g' with content_hash_to_id_map := assocInsert new_hash node_id map1 }
    let g2 := add_connections.foldl
      (fun acc t => if t ≠ 0 ∧ (acc.get_node t).isSome
                    then { acc with nodes := assocUpdate node_id (fun n => n.add_edge t) acc.nodes }
                    else acc) g1
    let g3 := remove_connections.foldl
      (fun acc t => { acc with nodes := assocUpdate node_id (fun n => n.remove_edge t) acc.nodes }) g2
    (true, g3)

/-- Lexical `top_k` as the spec words it (spec §4.3): score every document,
rank descending with ties broken by first-seen corpus order (stable sort),
truncate to `k`. -/
def specLexTopK (scores : List ℚ) (ids : List Nat) (k : Int) : List Nat :=
  pySliceTo ((sortDesc scores.enum).map (fun p => ids.getD p.1 0)) k

/-- One-node sample graph (content "A"; id 1). -/
def sampleA : MemoryGraph := (write freshGraph (.str "A") []).2

/-- Two-node sample graph: "A" (id 1) and "B" (id 2) written with connections [1], so the only edge is 2 -> 1. -/
def sampleAB : MemoryGraph := (write sampleA (.str "B") [1]).2

def sampleABC : MemoryGraph :=
  (write (write (write freshGraph (.str "a") []).2 (.str "b") []).2 (.str "c") []).2

/-- Two-node sample graph (contents "p", "q"; ids 1, 2). -/
def samplePQ : MemoryGraph :=
  (write (write freshGraph (.str "p") []).2 (.str "q") []).2

/-- `samplePQ` after re-keying node 2 onto node 1's content key "p": the dedup
index maps "p" to 2 while node 1 still carries content "p". -/
def sampleCollide : MemoryGraph := (update samplePQ 2 (some (.str "p")) [] []).2

theorem bfsLoop_nil (g : MemoryGraph) (maxd : Nat) (disc : List Nat) :
    bfsLoop g maxd [] disc = disc := by
  rw [bfsLoop]

theorem bfsLoop_cons (g : MemoryGraph) (maxd c dep : Nat) (rest : List (Nat × Nat))
    (disc : List Nat) :
    bfsLoop g maxd ((c, dep) :: rest) disc =
      if maxd ≤ dep then bfsLoop g maxd rest disc
      else
        match g.get_node c with
        | none => bfsLoop g maxd rest disc
        | some node =>
          bfsLoop g maxd (rest ++ (freshNeighbors node disc).map (fun t => (t, dep + 1)))
            (disc ++ freshNeighbors node disc) := by
  rw [bfsLoop]
  by_cases h : maxd ≤ dep
  · simp [h]
  · simp only [if_neg h]
    split
    next hg => rw [hg]
    next node hg => rw [hg]

theorem bfsLoop_cons_skip (g : MemoryGraph) (maxd c dep : Nat) (rest : List (Nat × Nat))
    (disc : List Nat) (h : maxd ≤ dep) :
    bfsLoop g maxd ((c, dep) :: rest) disc = bfsLoop g maxd rest disc := by
  rw [bfsLoop_cons, if_pos h]

theorem bfsLoop_cons_dead (g : MemoryGraph) (maxd c dep : Nat) (rest : List (Nat × Nat))
    (disc : List Nat) (h : ¬ maxd ≤ dep) (hg : g.get_node c = none) :
    bfsLoop g maxd ((c, dep) :: rest) disc = bfsLoop g maxd rest disc := by
  rw [bfsLoop_cons, if_neg h, hg]

theorem bfsLoop_cons_expand (g : MemoryGraph) (maxd c dep : Nat) (rest : List (Nat × Nat))
    (disc : List Nat) (node : MemoryNode) (h : ¬ maxd ≤ dep)
    (hg : g.get_node c = some node) :
    bfsLoop g maxd ((c, dep) :: rest) disc =
      bfsLoop g maxd (rest ++ (freshNeighbors node disc).map (fun t => (t, dep + 1)))
        (disc ++ freshNeighbors node disc) := by
  rw [bfsLoop_cons, if_neg h, hg]

theorem bfsLoop_disc_subset (g : MemoryGraph) (maxd : Nat) :
    ∀ (q : List (Nat × Nat)) (disc : List Nat), ∀ x ∈ disc, x ∈ bfsLoop g maxd q disc := by
  intro q disc
  induction q, disc using bfsLoop.induct g maxd with
  | case1 disc => intro x hx; rwa [bfsLoop_nil]
  | case2 disc c dep rest h ih =>
    intro x hx
    rw [bfsLoop_cons_skip g maxd c dep rest disc h]
    exact ih x hx
  | case3 disc c dep rest h hg ih =>
    intro x hx
    rw [bfsLoop_cons_dead g maxd c dep rest disc h hg]
    exact ih x hx
  | case4 disc c dep rest h node hg ih =>
    intro x hx
    rw [bfsLoop_cons_expand g maxd c dep rest disc node h hg]
    exact ih x (List.mem_append_left _ hx)

theorem bfsLoop_all_deep (g : MemoryGraph) (maxd : Nat) :
    ∀ (q : List (Nat × Nat)) (disc : List Nat), (∀ e ∈ q, maxd ≤ e.2) →
      bfsLoop g maxd q disc = disc := by
  intro q disc
  induction q with
  | nil => intro _; rw [bfsLoop_nil]
  | cons e rest ih =>
    intro h
    obtain ⟨c, dep⟩ := e
    rw [bfsLoop_cons_skip g maxd c dep rest disc (h (c, dep) (List.mem_cons_self _ _))]
    exact ih (fun e he => h e (List.mem_cons_of_mem _ he))

/-- Invariant of the BFS worklist: entry depths are non-decreasing and any two
entries differ by at most one (the classic two-layer frontier shape). -/
def depthsOK (q : List (Nat × Nat)) : Prop :=
  List.Chain' (fun a b => a.2 ≤ b.2) q ∧ ∀ a ∈ q, ∀ b ∈ q, a.2 ≤ b.2 + 1

theorem chain_le_of_head : ∀ {rest : List (Nat × Nat)} {a : Nat × Nat},
    List.Chain' (fun a b : Nat × Nat => a.2 ≤ b.2) (a :: rest) → ∀ b ∈ rest, a.2 ≤ b.2 := by
  intro rest
  induction rest with
  | nil =>
    intro a _ b hb
    cases hb
  | cons e rs ih =>
    intro a h b hb
    have h1 : a.2 ≤ e.2 := (List.chain'_cons.mp h).1
    have h2 := (List.chain'_cons.mp h).2
    rcases List.mem_cons.mp hb with rfl | hb'
    · exact h1
    · exact le_trans h1 (ih h2 b hb')

theorem depthsOK_tail {e : Nat × Nat} {rest : List (Nat × Nat)}
    (h : depthsOK (e :: rest)) : depthsOK rest := by
  obtain ⟨hch, hp⟩ := h
  exact ⟨hch.tail, fun a ha b hb => hp a (List.mem_cons_of_mem _ ha) b (List.mem_cons_of_mem _ hb)⟩

theorem chain_map_const (k : Nat) : ∀ (l : List Nat),
    List.Chain' (fun a b : Nat × Nat => a.2 ≤ b.2) (l.map (fun t => (t, k))) := by
  intro l
  induction l with
  | nil => simp
  | cons x xs ih =>
    cases xs with
    | nil => simp
    | cons y ys =>
      exact List.chain'_cons.mpr ⟨le_refl k, ih⟩

theorem depthsOK_expand {c dep : Nat} {rest : List (Nat × Nat)} (l : List Nat)
    (h : depthsOK ((c, dep) :: rest)) :
    depthsOK (rest ++ l.map (fun t => (t, dep + 1))) := by
  obtain ⟨hch, hpair⟩ := h
  have hhead := chain_le_of_head hch
  have hsnd : ∀ b ∈ l.map (fun t => (t, dep + 1)), b.2 = dep + 1 := by
    intro b hb
    rcases List.mem_map.mp hb with ⟨t, _, rfl⟩
    rfl
  constructor
  · rw [List.chain'_append]
    refine ⟨hch.tail, chain_map_const (dep + 1) l, ?_⟩
    intro x hx y hy
    have hxr : x ∈ rest := List.mem_of_mem_getLast? hx
    have hyr : y.2 = dep + 1 := hsnd y (List.mem_of_mem_head? hy)
    have : x.2 ≤ dep + 1 :=
      hpair x (List.mem_cons_of_mem _ hxr) (c, dep) (List.mem_cons_self _ _)
    omega
  · intro a ha b hb
    rcases List.mem_append.mp ha with ha' | ha' <;>
      rcases List.mem_append.mp hb with hb' | hb'
    · exact hpair a (List.mem_cons_of_mem _ ha') b (List.mem_cons_of_mem _ hb')
    · have h1 : a.2 ≤ dep + 1 :=
        hpair a (List.mem_cons_of_mem _ ha') (c, dep) (List.mem_cons_self _ _)
      have h2 := hsnd b hb'
      omega
    · have h1 := hsnd a ha'
      have h2 : dep ≤ b.2 := hhead b hb'
      omega
    · have h1 := hsnd a ha'
      have h2 := hsnd b hb'
      omega

theorem bfsLoop_mono_maxd (g : MemoryGraph) (d : Nat) :
    ∀ (q : List (Nat × Nat)) (disc : List Nat), depthsOK q →
      ∀ x ∈ bfsLoop g d q disc, x ∈ bfsLoop g (d + 1) q disc := by
  intro q disc
  induction q, disc using bfsLoop.induct g d with
  | case1 disc =>
    intro _ x hx
    rw [bfsLoop_nil] at hx
    rw [bfsLoop_nil]
    exact hx
  | case2 disc c dep rest h ih =>
    intro hOK x hx
    have hall : ∀ e ∈ rest, d ≤ e.2 :=
      fun e he => le_trans h (chain_le_of_head hOK.1 e he)
    rw [bfsLoop_cons_skip g d c dep rest disc h, bfsLoop_all_deep g d rest disc hall] at hx
    exact bfsLoop_disc_subset g (d + 1) _ disc x hx
  | case3 disc c dep rest h hg ih =>
    intro hOK x hx
    rw [bfsLoop_cons_dead g d c dep rest disc h hg] at hx
    rw [bfsLoop_cons_dead g (d + 1) c dep rest disc (by omega) hg]
    exact ih (depthsOK_tail hOK) x hx
  | case4 disc c dep rest h node hg ih =>
    intro hOK x hx
    rw [bfsLoop_cons_expand g d c dep rest disc node h hg] at hx
    rw [bfsLoop_cons_expand g (d + 1) c dep rest disc node (by omega) hg]
    exact ih (depthsOK_expand _ hOK) x hx

theorem depthsOK_init (seeds : List Nat) : depthsOK (seeds.map (fun i => (i, 0))) := by
  constructor
  · exact chain_map_const 0 seeds
  · intro a ha b _
    rcases List.mem_map.mp ha with ⟨t, _, rfl⟩
    simp

theorem bfs_exploration_seed_mem (g : MemoryGraph) (seeds : List Nat) (d : Nat) :
    ∀ x ∈ seeds, x ∈ g.bfs_exploration seeds d := by
  intro x hx
  exact bfsLoop_disc_subset g d _ _ x (List.mem_dedup.mpr hx)

theorem bfs_exploration_zero (g : MemoryGraph) (seeds : List Nat) :
    ∀ x, x ∈ g.bfs_exploration seeds 0 ↔ x ∈ seeds := by
  intro x
  unfold MemoryGraph.bfs_exploration
  rw [bfsLoop_all_deep g 0 _ _ (fun e _ => Nat.zero_le _)]
  exact List.mem_dedup

theorem bfs_exploration_mono (g : MemoryGraph) (seeds : List Nat) (d : Nat) :
    ∀ x ∈ g.bfs_exploration seeds d, x ∈ g.bfs_exploration seeds (d + 1) := by
  intro x hx
  exact bfsLoop_mono_maxd g d _ _ (depthsOK_init seeds) x hx

theorem freshNeighbors_congr {d₁ d₂ : List Nat} (n : MemoryNode)
    (h : ∀ x, x ∈ d₁ ↔ x ∈ d₂) : freshNeighbors n d₁ = freshNeighbors n d₂ := by
  unfold freshNeighbors
  apply List.filter_congr
  intro x _
  simp [h x]

/-- Removing a worklist entry whose id names no stored node does not change the
BFS result: when popped it only gets skipped. -/
theorem bfsLoop_erase_dead (g : MemoryGraph) (maxd : Nat) (s dep0 : Nat)
    (hs : g.get_node s = none) :
    ∀ (q : List (Nat × Nat)) (disc : List Nat) (q₁ q₂ : List (Nat × Nat)),
      q = q₁ ++ (s, dep0) :: q₂ →
      bfsLoop g maxd q disc = bfsLoop g maxd (q₁ ++ q₂) disc := by
  intro q disc
  induction q, disc using bfsLoop.induct g maxd with
  | case1 disc =>
    intro q₁ q₂ h
    exact absurd h.symm (by simp)
  | case2 disc c dep rest h ih =>
    intro q₁ q₂ hq
    cases q₁ with
    | nil =>
      simp only [List.nil_append] at hq ⊢
      obtain ⟨hc, hrest⟩ : (c, dep) = (s, dep0) ∧ rest = q₂ := by
        have h1 := List.head_eq_of_cons_eq hq
        have h2 := List.tail_eq_of_cons_eq hq
        exact ⟨h1, h2⟩
      rw [bfsLoop_cons_skip g maxd c dep rest disc h, hrest]
    | cons e q₁' =>
      have he := List.head_eq_of_cons_eq hq
      have hrest := List.tail_eq_of_cons_eq hq
      subst he
      rw [bfsLoop_cons_skip g maxd c dep rest disc h, ih q₁' q₂ hrest]
      simp only [List.cons_append]
      rw [bfsLoop_cons_skip g maxd c dep (q₁' ++ q₂) disc h]
  | case3 disc c dep rest h hg ih =>
    intro q₁ q₂ hq
    cases q₁ with
    | nil =>
      simp only [List.nil_append] at hq ⊢
      have hrest := List.tail_eq_of_cons_eq hq
      rw [bfsLoop_cons_dead g maxd c dep rest disc h hg, hrest]
    | cons e q₁' =>
      have he := List.head_eq_of_cons_eq hq
      have hrest := List.tail_eq_of_cons_eq hq
      subst he
      rw [bfsLoop_cons_dead g maxd c dep rest disc h hg, ih q₁' q₂ hrest]
      simp only [List.cons_append]
      rw [bfsLoop_cons_dead g maxd c dep (q₁' ++ q₂) disc h hg]
  | case4 disc c dep rest h node hg ih =>
    intro q₁ q₂ hq
    cases q₁ with
    | nil =>
      simp only [List.nil_append] at hq
      have hc := List.head_eq_of_cons_eq hq
      have : c = s := congrArg Prod.fst hc
      rw [this] at hg
      rw [hg] at hs
      cases hs
    | cons e q₁' =>
      have he := List.head_eq_of_cons_eq hq
      have hrest := List.tail_eq_of_cons_eq hq
      subst he
      rw [bfsLoop_cons_expand g maxd c dep rest disc node h hg]
      rw [ih q₁' (q₂ ++ (freshNeighbors node disc).map (fun t => (t, dep + 1)))
        (by rw [hrest]; simp [List.append_assoc])]
      simp only [List.cons_append]
      rw [bfsLoop_cons_expand g maxd c dep (q₁' ++ q₂) disc node h hg]
      congr 1
      simp [List.append_assoc]

/-- The BFS result set depends on the discovered list only through its
membership. -/
theorem bfsLoop_disc_congr (g : MemoryGraph) (maxd : Nat) :
    ∀ (q : List (Nat × Nat)) (d₁ : List Nat), ∀ (d₂ : List Nat), (∀ x, x ∈ d₁ ↔ x ∈ d₂) →
      ∀ x, (x ∈ bfsLoop g maxd q d₁ ↔ x ∈ bfsLoop g maxd q d₂) := by
  intro q d₁
  induction q, d₁ using bfsLoop.induct g maxd with
  | case1 d₁ =>
    intro d₂ h x
    rw [bfsLoop_nil, bfsLoop_nil]
    exact h x
  | case2 d₁ c dep rest h ih =>
    intro d₂ hd x
    rw [bfsLoop_cons_skip g maxd c dep rest d₁ h, bfsLoop_cons_skip g maxd c dep rest d₂ h]
    exact ih d₂ hd x
  | case3 d₁ c dep rest h hg ih =>
    intro d₂ hd x
    rw [bfsLoop_cons_dead g maxd c dep rest d₁ h hg, bfsLoop_cons_dead g maxd c dep rest d₂ h hg]
    exact ih d₂ hd x
  | case4 d₁ c dep rest h node hg ih =>
    intro d₂ hd x
    rw [bfsLoop_cons_expand g maxd c dep rest d₁ node h hg,
      bfsLoop_cons_expand g maxd c dep rest d₂ node h hg]
    rw [freshNeighbors_congr node hd] at ih ⊢
    exact ih (d₂ ++ freshNeighbors node d₂) (fun y => by simp [List.mem_append, hd y]) x

/-- Seeding the discovered set with an id that names no stored node only adds
that id to the result: it is never expanded, and it never blocks a useful
discovery (there is no node whose expansion it could suppress). -/
theorem bfsLoop_dead_disc (g : MemoryGraph) (maxd : Nat) (s : Nat)
    (hs : g.get_node s = none) :
    ∀ (q : List (Nat × Nat)) (disc : List Nat), ∀ (d₀ : List Nat), disc = s :: d₀ → s ∉ d₀ →
      ∀ x, x ∈ bfsLoop g maxd q disc ↔ (x = s ∨ x ∈ bfsLoop g maxd q d₀) := by
  intro q disc
  induction q, disc using bfsLoop.induct g maxd with
  | case1 disc =>
    intro d₀ hd hs0 x
    subst hd
    rw [bfsLoop_nil, bfsLoop_nil]
    simp
  | case2 disc c dep rest h ih =>
    intro d₀ hd hs0 x
    rw [bfsLoop_cons_skip g maxd c dep rest disc h, bfsLoop_cons_skip g maxd c dep rest d₀ h]
    exact ih d₀ hd hs0 x
  | case3 disc c dep rest h hg ih =>
    intro d₀ hd hs0 x
    rw [bfsLoop_cons_dead g maxd c dep rest disc h hg,
      bfsLoop_cons_dead g maxd c dep rest d₀ h hg]
    exact ih d₀ hd hs0 x
  | case4 disc c dep rest h node hg ih =>
    intro d₀ hd hs0 x
    subst hd
    by_cases hse : s ∈ node.edges
    · have hsF0 : s ∈ freshNeighbors node d₀ := mem_freshNeighbors.mpr ⟨hse, hs0⟩
      obtain ⟨A, B, hsplit⟩ := List.append_of_mem hsF0
      have hF0nodup : (freshNeighbors node d₀).Nodup := freshNeighbors_nodup node d₀
      have hnd : (A ++ s :: B).Nodup := hsplit ▸ hF0nodup
      have hAs : s ∉ A := fun hc =>
        (List.nodup_append.mp hnd).2.2 hc (List.mem_cons_self s B)
      have hF1 : freshNeighbors node (s :: d₀) = A ++ B := by
        have h1 : freshNeighbors node (s :: d₀)
            = (freshNeighbors node d₀).filter (fun t => t != s) := by
          unfold freshNeighbors
          rw [List.filter_filter]
          apply List.filter_congr
          intro t _
          by_cases h1 : t = s <;> by_cases h2 : t ∈ d₀ <;> simp [h1, h2]
        rw [h1, ← List.Nodup.erase_eq_filter hF0nodup s, hsplit,
          List.erase_append_right _ hAs, List.erase_cons_head]
      rw [bfsLoop_cons_expand g maxd c dep rest (s :: d₀) node h hg,
        bfsLoop_cons_expand g maxd c dep rest d₀ node h hg]
      have hYq : rest ++ (freshNeighbors node d₀).map (fun t => (t, dep + 1))
          = (rest ++ A.map (fun t => (t, dep + 1)))
            ++ (s, dep + 1) :: B.map (fun t => (t, dep + 1)) := by
        rw [hsplit]
        simp [List.append_assoc]
      have hY1 := bfsLoop_erase_dead g maxd s (dep + 1) hs
        (rest ++ (freshNeighbors node d₀).map (fun t => (t, dep + 1)))
        (d₀ ++ freshNeighbors node d₀)
        (rest ++ A.map (fun t => (t, dep + 1))) (B.map (fun t => (t, dep + 1))) hYq
      have hq2 : (rest ++ A.map (fun t => (t, dep + 1))) ++ B.map (fun t => (t, dep + 1))
          = rest ++ (freshNeighbors node (s :: d₀)).map (fun t => (t, dep + 1)) := by
        rw [hF1]
        simp [List.append_assoc]
      have hdisc : ∀ y, y ∈ d₀ ++ freshNeighbors node d₀
          ↔ y ∈ (s :: d₀) ++ freshNeighbors node (s :: d₀) := by
        intro y
        rw [hF1, hsplit]
        simp only [List.mem_append, List.mem_cons]
        tauto
      have hiff : ∀ y,
          y ∈ bfsLoop g maxd
              (rest ++ (freshNeighbors node d₀).map (fun t => (t, dep + 1)))
              (d₀ ++ freshNeighbors node d₀)
          ↔ y ∈ bfsLoop g maxd
              (rest ++ (freshNeighbors node (s :: d₀)).map (fun t => (t, dep + 1)))
              ((s :: d₀) ++ freshNeighbors node (s :: d₀)) := by
        intro y
        rw [hY1, hq2]
        exact bfsLoop_disc_congr g maxd _ _ _ hdisc y
      have hsX : s ∈ bfsLoop g maxd
          (rest ++ (freshNeighbors node (s :: d₀)).map (fun t => (t, dep + 1)))
          ((s :: d₀) ++ freshNeighbors node (s :: d₀)) :=
        bfsLoop_disc_subset g maxd _ _ s (by simp)
      constructor
      · intro hx
        exact Or.inr ((hiff x).mpr hx)
      · rintro (rfl | hx)
        · exact hsX
        · exact (hiff x).mp hx
    · have hfr : freshNeighbors node (s :: d₀) = freshNeighbors node d₀ := by
        unfold freshNeighbors
        apply List.filter_congr
        intro t ht
        have htne : t ≠ s := fun hts => hse (hts ▸ List.mem_dedup.mp ht)
        simp [List.mem_cons, htne]
      rw [bfsLoop_cons_expand g maxd c dep rest (s :: d₀) node h hg,
        bfsLoop_cons_expand g maxd c dep rest d₀ node h hg]
      rw [hfr] at ih ⊢
      have hnotin : s ∉ d₀ ++ freshNeighbors node d₀ := by
        intro hmem
        rcases List.mem_append.mp hmem with h1 | h1
        · exact hs0 h1
        · exact hse (mem_freshNeighbors.mp h1).1
      exact ih (d₀ ++ freshNeighbors node d₀) rfl hnotin x

/-- Appending a seed that names no stored node adds exactly that id to the BFS
result set. -/
theorem bfs_exploration_dead_seed (g : MemoryGraph) (seeds : List Nat) (d : Nat) (s : Nat)
    (hs : g.get_node s = none) :
    ∀ x, x ∈ g.bfs_exploration (seeds ++ [s]) d
      ↔ (x ∈ g.bfs_exploration seeds d ∨ x = s) := by
  intro x
  unfold MemoryGraph.bfs_exploration
  have hq : (seeds ++ [s]).map (fun i => (i, 0))
      = seeds.map (fun i => (i, 0)) ++ (s, 0) :: [] := by simp
  rw [bfsLoop_erase_dead g d s 0 hs _ _ _ _ hq, List.append_nil]
  by_cases hmem : s ∈ seeds
  · have hd : ∀ y, y ∈ (seeds ++ [s]).dedup ↔ y ∈ seeds.dedup := by
      intro y
      simp only [List.mem_dedup, List.mem_append, List.mem_singleton]
      constructor
      · rintro (hy | rfl)
        · exact hy
        · exact hmem
      · exact Or.inl
    rw [bfsLoop_disc_congr g d (seeds.map (fun i => (i, 0))) _ _ hd x]
    constructor
    · exact Or.inl
    · rintro (hx | rfl)
      · exact hx
      · exact bfsLoop_disc_subset g d _ _ _ (List.mem_dedup.mpr hmem)
  · have hd2 : ∀ y, y ∈ (seeds ++ [s]).dedup ↔ y ∈ s :: seeds.dedup := by
      intro y
      simp only [List.mem_dedup, List.mem_append, List.mem_singleton, List.mem_cons]
      tauto
    rw [bfsLoop_disc_congr g d (seeds.map (fun i => (i, 0))) _ _ hd2 x]
    rw [bfsLoop_dead_disc g d s hs (seeds.map (fun i => (i, 0))) (s :: seeds.dedup)
      seeds.dedup rfl (fun hc => hmem (List.mem_dedup.mp hc)) x]
    tauto

theorem assocFind_insert_self {κ α : Type} [DecidableEq κ] (k : κ) (v : α) :
    ∀ (l : List (κ × α)), assocFind k (assocInsert k v l) = some v := by
  intro l
  induction l with
  | nil => simp [assocInsert, assocFind]
  | cons p rest ih =>
    by_cases h : p.1 = k
    · simp [assocInsert, assocFind, h]
    · simp [assocInsert, assocFind, h, ih]

theorem assocFind_insert_ne {κ α : Type} [DecidableEq κ] {k k' : κ} (h : k' ≠ k) (v : α) :
    ∀ (l : List (κ × α)), assocFind k' (assocInsert k v l) = assocFind k' l := by
  intro l
  induction l with
  | nil => simp [assocInsert, assocFind, Ne.symm h]
  | cons p rest ih =>
    by_cases hp : p.1 = k
    · simp [assocInsert, assocFind, hp, Ne.symm h]
    · simp [assocInsert, assocFind, hp, ih]

theorem assocFind_update_self {κ α : Type} [DecidableEq κ] (k : κ) (f : α → α) :
    ∀ (l : List (κ × α)), assocFind k (assocUpdate k f l) = (assocFind k l).map f := by
  intro l
  induction l with
  | nil => simp [assocUpdate, assocFind]
  | cons p rest ih =>
    by_cases h : p.1 = k
    · simp [assocUpdate, assocFind, h]
    · simp [assocUpdate, assocFind, h, ih]

theorem assocFind_update_ne {κ α : Type} [DecidableEq κ] {k k' : κ} (h : k' ≠ k) (f : α → α) :
    ∀ (l : List (κ × α)), assocFind k' (assocUpdate k f l) = assocFind k' l := by
  intro l
  induction l with
  | nil => simp [assocUpdate, assocFind]
  | cons p rest ih =>
    by_cases hp : p.1 = k
    · simp [assocUpdate, assocFind, hp, Ne.symm h]
    · simp [assocUpdate, assocFind, hp, ih]

theorem assocUpdate_length {κ α : Type} [DecidableEq κ] (k : κ) (f : α → α) :
    ∀ (l : List (κ × α)), (assocUpdate k f l).length = l.length := by
  intro l
  induction l with
  | nil => rfl
  | cons p rest ih =>
    by_cases h : p.1 = k
    · rw [assocUpdate, if_pos h]
      simp
    · rw [assocUpdate, if_neg h]
      simp [ih]

theorem assocErase_of_none {κ α : Type} [DecidableEq κ] {k : κ} :
    ∀ {l : List (κ × α)}, assocFind k l = none → assocErase k l = l := by
  intro l h
  induction l with
  | nil => rfl
  | cons p rest ih =>
    rw [assocFind] at h
    by_cases hp : p.1 = k
    · rw [if_pos hp] at h
      cases h
    · rw [if_neg hp] at h
      rw [assocErase, if_neg hp, ih h]

theorem assocFind_none_of_not_keys {κ α : Type} [DecidableEq κ] {k : κ} :
    ∀ {l : List (κ × α)}, k ∉ l.map Prod.fst → assocFind k l = none := by
  intro l h
  induction l with
  | nil => rfl
  | cons p rest ih =>
    rw [List.map_cons, List.mem_cons] at h
    push_neg at h
    rw [assocFind, if_neg (fun hc => h.1 hc.symm)]
    exact ih h.2

theorem assocFind_erase_self {κ α : Type} [DecidableEq κ] (k : κ) :
    ∀ {l : List (κ × α)}, (l.map Prod.fst).Nodup → assocFind k (assocErase k l) = none := by
  intro l h
  induction l with
  | nil => rfl
  | cons p rest ih =>
    rw [List.map_cons, List.nodup_cons] at h
    by_cases hp : p.1 = k
    · rw [assocErase, if_pos hp]
      exact assocFind_none_of_not_keys (hp ▸ h.1)
    · rw [assocErase, if_neg hp, assocFind, if_neg hp]
      exact ih h.2

theorem hash_normalize (m : Metadata) : dictHash (normalizeMetadata m) = getHash m := by
  cases m with
  | str s => rw [normalizeMetadata, getHash, dictHash, assocFind, if_pos rfl]
  | dict d => rfl

theorem add_node_fresh {g : MemoryGraph} {m : Metadata}
    (h : assocFind (getHash m) g.content_hash_to_id_map = none) :
    g.add_node m = (g.nextId,
      ⟨g.nodes ++ [(g.nextId, ⟨g.nextId, normalizeMetadata m, []⟩)],
       assocInsert (getHash m) g.nextId g.content_hash_to_id_map, g.nextId + 1⟩) := by
  unfold MemoryGraph.add_node
  simp only [h]

theorem add_node_dup {g : MemoryGraph} {m : Metadata} {i : Nat}
    (h : assocFind (getHash m) g.content_hash_to_id_map = some i) :
    g.add_node m = (i, g) := by
  unfold MemoryGraph.add_node
  simp only [h]

theorem add_edge_nodes_length (g : MemoryGraph) (s t : Nat) :
    ((g.add_edge s t).2).nodes.length = g.nodes.length := by
  unfold MemoryGraph.add_edge
  by_cases h : (g.get_node s).isSome ∧ (g.get_node t).isSome
  · rw [if_pos h]
    exact assocUpdate_length s _ g.nodes
  · rw [if_neg h]

theorem add_edge_map (g : MemoryGraph) (s t : Nat) :
    ((g.add_edge s t).2).content_hash_to_id_map = g.content_hash_to_id_map := by
  unfold MemoryGraph.add_edge
  by_cases h : (g.get_node s).isSome ∧ (g.get_node t).isSome
  · rw [if_pos h]
  · rw [if_neg h]

theorem add_edge_nextId (g : MemoryGraph) (s t : Nat) :
    ((g.add_edge s t).2).nextId = g.nextId := by
  unfold MemoryGraph.add_edge
  by_cases h : (g.get_node s).isSome ∧ (g.get_node t).isSome
  · rw [if_pos h]
  · rw [if_neg h]

theorem applyConnections_nodes_length :
    ∀ (conns : List Nat) (g : MemoryGraph) (nid : Nat),
      (applyConnections g nid conns).nodes.length = g.nodes.length := by
  intro conns
  induction conns with
  | nil => intro g nid; rfl
  | cons t rest ih =>
    intro g nid
    unfold applyConnections
    rw [List.foldl_cons]
    by_cases h : t ≠ 0
    · rw [if_pos h]
      have := ih ((g.add_edge nid t).2) nid
      unfold applyConnections at this
      rw [this, add_edge_nodes_length]
    · rw [if_neg h]
      have := ih g nid
      unfold applyConnections at this
      rw [this]

theorem pySliceTo_length_le {α : Type} (l : List α) (k : Int) (hk : 0 ≤ k) :
    (pySliceTo l k).length ≤ k.toNat := by
  unfold pySliceTo
  rw [if_pos hk]
  simp

theorem semantic_search_length_le (g : MemoryGraph) (sim : Nat → ℚ)
    (cands : List Nat) (k : Int) (hk : 0 ≤ k) :
    (g.semantic_search sim cands k).length ≤ k.toNat := by
  unfold MemoryGraph.semantic_search
  by_cases h : cands = []
  · rw [if_pos h]
    simp
  · rw [if_neg h]
    exact pySliceTo_length_le _ k hk

theorem insertAsc_perm (x : Nat × ℚ) :
    ∀ (l : List (Nat × ℚ)), List.Perm (insertAsc x l) (x :: l) := by
  intro l
  induction l with
  | nil => rfl
  | cons y ys ih =>
    rw [insertAsc]
    by_cases h : x.2 ≤ y.2
    · rw [if_pos h]
    · rw [if_neg h]
      exact (ih.cons y).trans (List.Perm.swap x y ys)

theorem sortAsc_perm : ∀ (l : List (Nat × ℚ)), List.Perm (sortAsc l) l := by
  intro l
  induction l with
  | nil => rfl
  | cons x xs ih =>
    rw [sortAsc]
    exact (insertAsc_perm x (sortAsc xs)).trans (ih.cons x)

theorem sortAsc_length (l : List (Nat × ℚ)) : (sortAsc l).length = l.length :=
  (sortAsc_perm l).length_eq

theorem insertAsc_pairwise (x : Nat × ℚ) :
    ∀ {l : List (Nat × ℚ)}, l.Pairwise (fun a b => a.2 ≤ b.2) →
      (insertAsc x l).Pairwise (fun a b => a.2 ≤ b.2) := by
  intro l h
  induction l with
  | nil => simp [insertAsc]
  | cons y ys ih =>
    rw [insertAsc]
    rcases List.pairwise_cons.mp h with ⟨hy, hys⟩
    by_cases hxy : x.2 ≤ y.2
    · rw [if_pos hxy]
      refine List.pairwise_cons.mpr ⟨?_, h⟩
      intro z hz
      rcases List.mem_cons.mp hz with rfl | hz'
      · exact hxy
      · exact le_trans hxy (hy z hz')
    · rw [if_neg hxy]
      refine List.pairwise_cons.mpr ⟨?_, ih hys⟩
      intro z hz
      have hz' := (insertAsc_perm x ys).mem_iff.mp hz
      rcases List.mem_cons.mp hz' with rfl | hz''
      · exact le_of_not_le hxy
      · exact hy z hz''

theorem sortAsc_pairwise : ∀ (l : List (Nat × ℚ)),
    (sortAsc l).Pairwise (fun a b => a.2 ≤ b.2) := by
  intro l
  induction l with
  | nil => simp [sortAsc]
  | cons x xs ih =>
    rw [sortAsc]
    exact insertAsc_pairwise x ih

theorem argsortAsc_perm_range (scores : List ℚ) :
    List.Perm (argsortAsc scores) (List.range scores.length) := by
  unfold argsortAsc
  have h1 := (sortAsc_perm scores.enum).map Prod.fst
  rw [List.enum_map_fst] at h1
  exact h1

theorem bm25_search_all (g : MemoryGraph) (scores : List ℚ)
    (h : scores.length = g.nodeIds.length) :
    ∀ x, x ∈ g.bm25_search scores 0 ↔ x ∈ g.nodeIds := by
  intro x
  unfold MemoryGraph.bm25_search pySliceFrom
  simp only [neg_zero, le_refl, if_pos, Int.toNat_zero, List.drop_zero]
  rw [List.mem_map]
  constructor
  · rintro ⟨i, hi, rfl⟩
    have hir : i ∈ List.range scores.length := (argsortAsc_perm_range scores).mem_iff.mp hi
    rw [List.mem_range, h] at hir
    rw [List.getD_eq_getElem g.nodeIds 0 hir]
    exact List.getElem_mem hir
  · intro hx
    rcases List.mem_iff_getElem.mp hx with ⟨i, hi, rfl⟩
    refine ⟨i, ?_, ?_⟩
    · apply (argsortAsc_perm_range scores).mem_iff.mpr
      rw [List.mem_range, h]
      exact hi
    · rw [List.getD_eq_getElem g.nodeIds 0 hi]

theorem bm25_search_neg_length (g : MemoryGraph) (scores : List ℚ) (k : Int) (hk : k < 0)
    (h : scores.length = g.nodeIds.length) :
    (g.bm25_search scores k).length = scores.length - min (-k).toNat scores.length := by
  unfold MemoryGraph.bm25_search pySliceFrom
  rw [if_pos (by omega : (0:Int) ≤ -k)]
  simp only [List.length_map, List.length_drop]
  have hlen : (argsortAsc scores).length = scores.length := by
    unfold argsortAsc
    rw [List.length_map, sortAsc_length, List.enum_length]
  rw [hlen]
  omega

theorem bm25_topk_characterization (g : MemoryGraph) (scores : List ℚ) (k : Int) (hk : 0 < k) :
    ∃ dropped chosen : List (Nat × ℚ),
      sortAsc scores.enum = dropped ++ chosen ∧
      g.bm25_search scores k = (chosen.map Prod.fst).map (fun i => g.nodeIds.getD i 0) ∧
      chosen.length = min k.toNat scores.length ∧
      (∀ p ∈ dropped, ∀ q ∈ chosen, p.2 ≤ q.2) ∧
      chosen.Pairwise (fun p q : Nat × ℚ => p.2 ≤ q.2) ∧
      (scores.length ≤ k.toNat → dropped = []) := by
  have hslen : (sortAsc scores.enum).length = scores.length := by
    rw [sortAsc_length, List.enum_length]
  refine ⟨(sortAsc scores.enum).take (scores.length - k.toNat),
          (sortAsc scores.enum).drop (scores.length - k.toNat), ?_, ?_, ?_, ?_, ?_, ?_⟩
  · rw [List.take_append_drop]
  · unfold MemoryGraph.bm25_search pySliceFrom
    rw [if_neg (by omega : ¬ (0:Int) ≤ -k)]
    unfold argsortAsc
    rw [List.length_map, sortAsc_length, List.enum_length]
    have hj : (((scores.length : Nat) : Int) + -k).toNat = scores.length - k.toNat := by omega
    rw [hj, ← List.map_drop]
  · rw [List.length_drop, hslen]
    omega
  · intro p hp q hq
    have hpw := sortAsc_pairwise scores.enum
    rw [← List.take_append_drop (scores.length - k.toNat) (sortAsc scores.enum)] at hpw
    exact (List.pairwise_append.mp hpw).2.2 p hp q hq
  · exact (sortAsc_pairwise scores.enum).sublist (List.drop_sublist _ _)
  · intro hle
    have h0 : scores.length - k.toNat = 0 := by omega
    rw [h0, List.take_zero]


theorem sampleA_eq : sampleA = ⟨[(1, ⟨1, [("content", "A")], []⟩)], [("A", 1)], 2⟩ := by
  decide

theorem sampleAB_eq : sampleAB =
    ⟨[(1, ⟨1, [("content", "A")], []⟩), (2, ⟨2, [("content", "B")], [1]⟩)],
     [("A", 1), ("B", 2)], 3⟩ := by
  decide

theorem sampleAB_bfs1 : sampleAB.bfs_exploration [1] 1 = [1] := by
  rw [sampleAB_eq]
  simp +decide [MemoryGraph.bfs_exploration, bfsLoop_cons, bfsLoop_nil, MemoryGraph.get_node,
    assocFind, freshNeighbors, List.dedup, -Prod.mk_one_one, -Prod.mk_zero_zero]

theorem sampleAB_bfs2 : sampleAB.bfs_exploration [2] 1 = [2, 1] := by
  rw [sampleAB_eq]
  simp +decide [MemoryGraph.bfs_exploration, bfsLoop_cons, bfsLoop_nil, MemoryGraph.get_node,
    assocFind, freshNeighbors, List.dedup, -Prod.mk_one_one, -Prod.mk_zero_zero]

theorem write_nil (g : MemoryGraph) (m : Metadata) : write g m [] = g.add_node m := rfl

/-- C1: Idempotent write — on a graph whose dedup index does not hold the key of
`m` and none of whose stored nodes carries that key, `write m` twice returns the
same node id both times, the second call returns the graph of the first call
completely unchanged (so it creates no node), and exactly one node whose
canonical key equals `key(m)` exists afterwards. -/
theorem claim1_idempotent_write (g : MemoryGraph) (m : Metadata)
    (hmap : assocFind (getHash m) g.content_hash_to_id_map = none)
    (hnodes : ∀ p ∈ g.nodes, dictHash p.2.metadata ≠ getHash m) :
    (write (write g m []).2 m []).1 = (write g m []).1 ∧
    (write (write g m []).2 m []).2 = (write g m []).2 ∧
    ((write (write g m []).2 m []).2.nodes.filter
      (fun p => decide (dictHash p.2.metadata = getHash m))).length = 1 := by
  rw [write_nil, write_nil, add_node_fresh hmap]
  have hfind : assocFind (getHash m)
      (assocInsert (getHash m) g.nextId g.content_hash_to_id_map) = some g.nextId :=
    assocFind_insert_self _ _ _
  dsimp only
  rw [add_node_dup hfind]
  refine ⟨rfl, rfl, ?_⟩
  rw [List.filter_append]
  have h1 : g.nodes.filter (fun p => decide (dictHash p.2.metadata = getHash m)) = [] := by
    rw [List.filter_eq_nil_iff]
    intro p hp
    simp [hnodes p hp]
  rw [h1]
  simp [hash_normalize]

theorem claim1_idempotent_write_witness :
    (write (write freshGraph (.str "A") []).2 (.str "A") []).1
      = (write freshGraph (.str "A") []).1 ∧
    (write (write freshGraph (.str "A") []).2 (.str "A") []).2
      = (write freshGraph (.str "A") []).2 ∧
    ((write (write freshGraph (.str "A") []).2 (.str "A") []).2.nodes.filter
      (fun p => decide (dictHash p.2.metadata = getHash (.str "A")))).length = 1 :=
  claim1_idempotent_write freshGraph (.str "A") (by decide) (by decide)

/-- C2 counterexample: on `sampleAB`, node 1 ("A") has an empty edge set; the
duplicate `write "A"` with `connections = [2]` returns the existing id 1 but
adds the edge 1→2 to the pre-existing node — the connections argument is not
ignored and the node's edge set changes. -/
theorem claim2_counterexample :
    (write sampleAB (.str "A") [2]).1 = 1 ∧
    (sampleAB.get_node 1).map MemoryNode.edges = some [] ∧
    ((write sampleAB (.str "A") [2]).2.get_node 1).map MemoryNode.edges = some [2] := by
  decide

/-- C2 amended: when the key of `metadata` already maps to id `i`, `write`
returns `i` and creates no node (the node count is unchanged), but the
`connections` argument is still processed: the duplicate write applies
`add_edge i t` to every truthy target `t`, so the pre-existing node's edge set
may change. -/
theorem claim2_amended (g : MemoryGraph) (m : Metadata) (conns : List Nat) (i : Nat)
    (h : assocFind (getHash m) g.content_hash_to_id_map = some i) :
    write g m conns = (i, applyConnections g i conns) ∧
    (applyConnections g i conns).nodes.length = g.nodes.length := by
  constructor
  · unfold write
    simp only [add_node_dup h]
  · exact applyConnections_nodes_length conns g i

theorem claim2_amended_witness :
    write sampleAB (.str "A") [2] = (1, applyConnections sampleAB 1 [2]) ∧
    (applyConnections sampleAB 1 [2]).nodes.length = sampleAB.nodes.length :=
  claim2_amended sampleAB (.str "A") [2] 1 (by decide)

/-- C3: BFS depth bound — for every graph and seed list, `bfs_exploration` at
depth 0 returns exactly the seed set, and the result set at depth `d` is
contained in the result set at depth `d + 1`. -/
theorem claim3_bfs_depth_bound (g : MemoryGraph) (seeds : List Nat) (d : Nat) :
    (∀ x, x ∈ g.bfs_exploration seeds 0 ↔ x ∈ seeds) ∧
    (∀ x ∈ g.bfs_exploration seeds d, x ∈ g.bfs_exploration seeds (d + 1)) :=
  ⟨bfs_exploration_zero g seeds, bfs_exploration_mono g seeds d⟩

theorem claim3_bfs_depth_bound_witness :
    (2 ∈ sampleAB.bfs_exploration [1] 0 ↔ 2 ∈ [1]) ∧
    1 ∈ sampleAB.bfs_exploration [2] 2 :=
  ⟨(claim3_bfs_depth_bound sampleAB [1] 0).1 2,
   (claim3_bfs_depth_bound sampleAB [2] 1).2 1 (by rw [sampleAB_bfs2]; decide)⟩

/-- C4: Search result bound — for every graph, score vector, similarity
function and parameters, a positive `top_k = k` bounds the result length by
`k`, and an empty graph yields the empty list (a normal result of the total
function, not an error). -/
theorem claim4_search_bound (g : MemoryGraph) (scores : List ℚ) (sim : Nat → ℚ)
    (k : Int) (bd : Nat) (bc : Int) :
    (0 < k → (search g scores sim k bd bc).length ≤ k.toNat) ∧
    (g.nodes = [] → search g scores sim k bd bc = []) := by
  constructor
  · intro hk
    unfold search
    by_cases h : g.nodes = []
    · rw [if_pos h]
      simp
    · rw [if_neg h]
      calc ((g.semantic_search sim
              (g.bfs_exploration (g.bm25_search scores bc) bd) k).filterMap _).length
          ≤ (g.semantic_search sim
              (g.bfs_exploration (g.bm25_search scores bc) bd) k).length :=
            List.length_filterMap_le _ _
        _ ≤ k.toNat := semantic_search_length_le g sim _ k (le_of_lt hk)
  · intro h
    unfold search
    rw [if_pos h]

theorem claim4_search_bound_witness :
    (search sampleAB [0, 0] (fun _ => 0) 1 1 10).length ≤ (1 : Int).toNat ∧
    search freshGraph [] (fun _ => 0) 1 1 10 = [] :=
  ⟨(claim4_search_bound sampleAB [0, 0] (fun _ => 0) 1 1 10).1 (by decide),
   (claim4_search_bound freshGraph [] (fun _ => 0) 1 1 10).2 rfl⟩

/-- C5 counterexample: in `sampleCollide` the key "p" maps to node 2 while node
1 still carries content "p"; updating node 1's metadata to "z" deletes the
mapping "p" → 2 even though it is owned by a different node — contradicting the
claim that a colliding mapping owned by a different node is never removed. -/
theorem claim5_counterexample :
    assocFind "p" sampleCollide.content_hash_to_id_map = some 2 ∧
    (sampleCollide.get_node 1).map MemoryNode.metadata = some [("content", "p")] ∧
    assocFind "p"
      ((update sampleCollide 1 (some (.str "z")) [] []).2).content_hash_to_id_map = none := by
  decide

/-- C5 amended: when `update(node_id, metadata)` replaces a node's metadata, the
old key is removed from the dedup index whenever it is present — regardless of
which node it currently maps to — and the new key is then mapped to `node_id`,
overwriting any previous holder. -/
theorem claim5_amended (g : MemoryGraph) (nid : Nat) (m : Metadata) (node : MemoryNode)
    (h : g.get_node nid = some node) :
    (update g nid (some m) [] []).1 = true ∧
    (update g nid (some m) [] []).2.content_hash_to_id_map
      = assocInsert (getHash m) nid
          (assocErase (dictHash node.metadata) g.content_hash_to_id_map) ∧
    assocFind (getHash m) (update g nid (some m) [] []).2.content_hash_to_id_map = some nid ∧
    ((g.content_hash_to_id_map.map Prod.fst).Nodup → dictHash node.metadata ≠ getHash m →
      assocFind (dictHash node.metadata)
        (update g nid (some m) [] []).2.content_hash_to_id_map = none) := by
  have hred : (update g nid (some m) [] []).2.content_hash_to_id_map
      = assocInsert (getHash m) nid
          (assocErase (dictHash node.metadata) g.content_hash_to_id_map) := by
    unfold update
    rw [h]
    dsimp only
    rw [hash_normalize]
    by_cases hf : (assocFind (dictHash node.metadata) g.content_hash_to_id_map).isSome
    · rw [if_pos hf]
      rfl
    · rw [if_neg hf]
      rw [assocErase_of_none (Option.not_isSome_iff_eq_none.mp hf)]
      rfl
  refine ⟨?_, hred, ?_, ?_⟩
  · unfold update
    rw [h]
  · rw [hred]
    exact assocFind_insert_self _ _ _
  · intro hnd hne
    rw [hred, assocFind_insert_ne hne]
    exact assocFind_erase_self _ hnd

theorem claim5_amended_witness :
    assocFind "p" (update samplePQ 1 (some (.str "z")) [] []).2.content_hash_to_id_map = none :=
  (claim5_amended samplePQ 1 (.str "z") ⟨1, [("content", "p")], []⟩
    (by decide)).2.2.2 (by decide) (by decide)

/-- C6 counterexample: `search` performs no validation of `bm25_candidates`.
With `bm25_candidates = 0` (slice `[-0:]` is the whole list) it returns a
normal non-empty result list over the one-node graph, and with `-1` it returns
a normal (here empty) result list — it never rejects the input. -/
theorem claim6_counterexample :
    search sampleA [0] (fun _ => 0) 5 1 0 = [⟨1, [("content", "A")], 0, []⟩] ∧
    search sampleA [0] (fun _ => 0) 5 1 (-1) = [] := by
  rw [sampleA_eq]
  constructor
  · simp +decide [search, MemoryGraph.bm25_search, argsortAsc, sortAsc, insertAsc,
      pySliceFrom, pySliceTo, MemoryGraph.bfs_exploration, bfsLoop_cons, bfsLoop_nil,
      MemoryGraph.get_node, assocFind, freshNeighbors, List.dedup,
      MemoryGraph.semantic_search, sortDesc, insertDesc, MemoryGraph.nodeIds,
      -Prod.mk_one_one, -Prod.mk_zero_zero]
  · simp +decide [search, MemoryGraph.bm25_search, argsortAsc, sortAsc, insertAsc,
      pySliceFrom, pySliceTo, MemoryGraph.bfs_exploration, bfsLoop_cons, bfsLoop_nil,
      MemoryGraph.get_node, assocFind, freshNeighbors, List.dedup,
      MemoryGraph.semantic_search, sortDesc, insertDesc, MemoryGraph.nodeIds,
      -Prod.mk_one_one, -Prod.mk_zero_zero]

/-- C6 amended: `search`/`bm25_search` accept `bm25_candidates ≤ 0` without any
validation or failure: `0` selects the entire corpus as lexical candidates
(`argsort(scores)[-0:]` is the whole index list), and a negative `k` selects
all but the `|k|` lowest-scoring documents; a normal result list is produced
either way. -/
theorem claim6_amended (g : MemoryGraph) (scores : List ℚ)
    (h : scores.length = g.nodeIds.length) :
    (∀ x, x ∈ g.bm25_search scores 0 ↔ x ∈ g.nodeIds) ∧
    (∀ k : Int, k < 0 →
      (g.bm25_search scores k).length = scores.length - min (-k).toNat scores.length) :=
  ⟨bm25_search_all g scores h, fun k hk => bm25_search_neg_length g scores k hk h⟩

theorem claim6_amended_witness :
    (1 ∈ sampleA.bm25_search [0] 0 ↔ 1 ∈ sampleA.nodeIds) ∧
    (sampleA.bm25_search [0] (-1)).length
      = [(0 : ℚ)].length - min (-(-1 : Int)).toNat [(0 : ℚ)].length :=
  ⟨(claim6_amended sampleA [0] (by decide)).1 1,
   (claim6_amended sampleA [0] (by decide)).2 (-1) (by decide)⟩

/-- C7 counterexample: with three equally-scored documents (ids 1, 2, 3 in
corpus order) and `k = 2`, `bm25_search` returns `[2, 3]` — the tie at the
selection boundary is broken in favour of the LAST-seen documents, and the
first-seen document 1 is excluded — while the spec's stable descending
first-seen ranking (`specLexTopK`) returns `[1, 2]`. -/
theorem claim7_counterexample :
    sampleABC.bm25_search [0, 0, 0] 2 = [2, 3] ∧
    specLexTopK [0, 0, 0] sampleABC.nodeIds 2 = [1, 2] ∧
    sampleABC.bm25_search [0, 0, 0] 2 ≠ specLexTopK [0, 0, 0] sampleABC.nodeIds 2 ∧
    1 ∉ sampleABC.bm25_search [0, 0, 0] 2 := by
  decide

/-- C7 amended: for positive `k`, `bm25_search` returns the ids of the `k`
highest-scoring documents (every dropped document scores no higher than every
chosen one), but listed in ASCENDING score order (stable within equal scores,
so output ties keep corpus order); ties straddling the selection cutoff are
resolved in favour of later corpus positions (see the counterexample); when `k`
is at least the corpus size, nothing is dropped and the whole corpus is
returned. -/
theorem claim7_amended (g : MemoryGraph) (scores : List ℚ) (k : Int) (hk : 0 < k) :
    ∃ dropped chosen : List (Nat × ℚ),
      sortAsc scores.enum = dropped ++ chosen ∧
      g.bm25_search scores k = (chosen.map Prod.fst).map (fun i => g.nodeIds.getD i 0) ∧
      chosen.length = min k.toNat scores.length ∧
      (∀ p ∈ dropped, ∀ q ∈ chosen, p.2 ≤ q.2) ∧
      chosen.Pairwise (fun p q : Nat × ℚ => p.2 ≤ q.2) ∧
      (scores.length ≤ k.toNat → dropped = []) :=
  bm25_topk_characterization g scores k hk

theorem claim7_amended_witness :
    ∃ dropped chosen : List (Nat × ℚ),
      sortAsc [(0 : ℚ), 0, 0].enum = dropped ++ chosen ∧
      sampleABC.bm25_search [0, 0, 0] 2
        = (chosen.map Prod.fst).map (fun i => sampleABC.nodeIds.getD i 0) ∧
      chosen.length = min (2 : Int).toNat [(0 : ℚ), 0, 0].length ∧
      (∀ p ∈ dropped, ∀ q ∈ chosen, p.2 ≤ q.2) ∧
      chosen.Pairwise (fun p q : Nat × ℚ => p.2 ≤ q.2) ∧
      ([(0 : ℚ), 0, 0].length ≤ (2 : Int).toNat → dropped = []) :=
  claim7_amended sampleABC [0, 0, 0] 2 (by decide)

/-- C8: Edge existence guard with atomicity — `add_edge a b` returns `false`
and the graph unchanged whenever `a` or `b` names no stored node; otherwise it
returns `true`, inserts `b` into `a`'s edge set, and touches nothing else (all
other nodes, the dedup index and the id counter are unchanged). -/
theorem claim8_add_edge_guard (g : MemoryGraph) (a b : Nat) :
    ((g.get_node a = none ∨ g.get_node b = none) → g.add_edge a b = (false, g)) ∧
    (∀ n, g.get_node a = some n → (g.get_node b).isSome = true →
      (g.add_edge a b).1 = true ∧
      (g.add_edge a b).2.get_node a = some (n.add_edge b) ∧
      (∀ u, u ≠ a → (g.add_edge a b).2.get_node u = g.get_node u) ∧
      (g.add_edge a b).2.content_hash_to_id_map = g.content_hash_to_id_map ∧
      (g.add_edge a b).2.nextId = g.nextId) := by
  constructor
  · intro h
    unfold MemoryGraph.add_edge
    rw [if_neg]
    intro hc
    rcases h with h | h
    · rw [h] at hc
      exact Bool.false_ne_true hc.1
    · rw [h] at hc
      exact Bool.false_ne_true hc.2
  · intro n hn hb
    have hcond : (g.get_node a).isSome = true ∧ (g.get_node b).isSome = true := by
      rw [hn]
      exact ⟨rfl, hb⟩
    unfold MemoryGraph.add_edge
    rw [if_pos hcond]
    refine ⟨rfl, ?_, ?_, rfl, rfl⟩
    · show assocFind a (assocUpdate a (fun x => x.add_edge b) g.nodes) = _
      rw [assocFind_update_self]
      unfold MemoryGraph.get_node at hn
      rw [hn]
      rfl
    · intro u hu
      show assocFind u (assocUpdate a (fun x => x.add_edge b) g.nodes) = _
      rw [assocFind_update_ne hu]
      rfl

theorem claim8_add_edge_guard_witness :
    sampleAB.add_edge 5 1 = (false, sampleAB) ∧
    (sampleAB.add_edge 1 2).1 = true ∧
    (sampleAB.add_edge 1 2).2.get_node 1
      = some (MemoryNode.add_edge ⟨1, [("content", "A")], []⟩ 2) :=
  ⟨(claim8_add_edge_guard sampleAB 5 1).1 (Or.inl (by decide)),
   ((claim8_add_edge_guard sampleAB 1 2).2 ⟨1, [("content", "A")], []⟩ (by decide) (by decide)).1,
   ((claim8_add_edge_guard sampleAB 1 2).2 ⟨1, [("content", "A")], []⟩ (by decide) (by decide)).2.1⟩

/-- C9: Write connection direction — from the empty graph, `write "A"` returns
id 1 and `write "B" [1]` returns id 2 with the single edge directed 2→1 (new
node to listed target); node 1 gains no edge, so `bfs([1], 1)` does not contain
2 while `bfs([2], 1)` contains 1. -/
theorem claim9_write_connection_direction :
    (write freshGraph (.str "A") []).1 = 1 ∧
    (write sampleA (.str "B") [1]).1 = 2 ∧
    (sampleAB.get_node 2).map MemoryNode.edges = some [1] ∧
    (sampleAB.get_node 1).map MemoryNode.edges = some [] ∧
    2 ∉ sampleAB.bfs_exploration [1] 1 ∧
    1 ∈ sampleAB.bfs_exploration [2] 1 := by
  refine ⟨by decide, by decide, by decide, by decide, ?_, ?_⟩
  · rw [sampleAB_bfs1]
    decide
  · rw [sampleAB_bfs2]
    decide

/-- C10: Implicit BFS seed retention — every seed id appears in the result of
`bfs_exploration`, whatever the depth; and a seed `s` that names no stored node
contributes exactly itself: appending it to the seed list adds `s` to the
result set and nothing else. -/
theorem claim10_bfs_seed_retention (g : MemoryGraph) (seeds : List Nat) (d s : Nat) :
    (∀ x ∈ seeds, x ∈ g.bfs_exploration seeds d) ∧
    (g.get_node s = none →
      ∀ x, x ∈ g.bfs_exploration (seeds ++ [s]) d
        ↔ (x ∈ g.bfs_exploration seeds d ∨ x = s)) :=
  ⟨bfs_exploration_seed_mem g seeds d,
   fun hs => bfs_exploration_dead_seed g seeds d s hs⟩

theorem claim10_bfs_seed_retention_witness :
    2 ∈ sampleAB.bfs_exploration [2] 1 ∧
    (99 ∈ sampleAB.bfs_exploration ([2] ++ [99]) 1
      ↔ (99 ∈ sampleAB.bfs_exploration [2] 1 ∨ 99 = 99)) :=
  ⟨(claim10_bfs_seed_retention sampleAB [2] 1 99).1 2 (by decide),
   (claim10_bfs_seed_retention sampleAB [2] 1 99).2 (by decide) 99⟩

